import Mathlib

/-!
Verification of the token-range partitioning core in `pkg/bloomutils/ring.go`.

The Go source is shallowly embedded below.  Machine integers are modelled as
`Nat` (with explicit `% 2^32` / `% 2^64` where the Go code performs wrapping
unsigned arithmetic) and `Int` where the Go code uses a signed `int`
accumulator (`prevToken`).  Go slices become `List`s.  The in-place
`sort.Slice` calls of the Go code are modelled in two parts: the value the
function computes, and the caller-visible content of the sorted slice after
the call (the `...Post` definitions).  `sort.Slice` is not stable and its
order on ties is unspecified; the model fixes the tie-break by using a stable
insertion sort, a deterministic refinement of the unspecified behaviour.
-/

/-- Size of the 32-bit token space: `2^32`.  Go token values are `uint32`. -/
def U32SIZE : Nat := 4294967296

/-- Largest 32-bit token, `math.MaxUint32`. -/
def U32MAX : Nat := 4294967295

/-- Size of the 64-bit fingerprint space: `2^64`. -/
def U64SIZE : Nat := 18446744073709551616

/-- Largest 64-bit fingerprint, `math.MaxUint64`. -/
def U64MAX : Nat := 18446744073709551615

/-- Model of dskit's `ring.InstanceDesc`: the fields `ring.go` reads, a string
id and the list of ring tokens the instance holds. -/
structure InstanceDesc where
  id : String
  tokens : List Nat
deriving DecidableEq

/-- Modelled from the spec: `v1.BoundsCheck`, the three-way position
classification of a token against an inclusive range (spec section 4.1);
the `v1` package is not part of the sources. -/
inductive BoundsCheck where
  | before
  | overlap
  | after
deriving DecidableEq

/-- Model of `InstanceWithTokenRange` from `ring.go`: an instance together
with an inclusive token range `[minToken, maxToken]`. -/
structure InstanceWithTokenRange where
  inst : InstanceDesc
  minToken : Nat
  maxToken : Nat
deriving DecidableEq

instance : Inhabited InstanceWithTokenRange :=
  ⟨⟨⟨"", []⟩, 0, 0⟩⟩

/-- Model of `InstanceWithTokenRange.Cmp` from `ring.go`: `Before` if the
token is below the range, `After` if above, else `Overlap`. -/
def InstanceWithTokenRange.cmp (i : InstanceWithTokenRange) (token : Nat) : BoundsCheck :=
  if token < i.minToken then .before
  else if token > i.maxToken then .after
  else .overlap

/-- Model of `InstancesWithTokenRange.Contains` from `ring.go`: true iff some
member range classifies the token as `Overlap`. -/
def rangesContain (l : List InstanceWithTokenRange) (token : Nat) : Bool :=
  l.any (fun i => i.cmp token == .overlap)

/-- Sort key used by `GetInstanceWithTokenRange`'s `sort.Slice` call: the
instance's first token, `Tokens[0]`.  Go panics on an empty token list; the
model totalises with default `0` (theorems that depend on the key assume
non-empty token lists). -/
def tokenKey (inst : InstanceDesc) : Nat := inst.tokens.headD 0

/-- Ascending-by-first-token ordering of the instances, as established in
place by `sort.Slice(instances, ...)` in `GetInstanceWithTokenRange`. -/
def sortInstances (instances : List InstanceDesc) : List InstanceDesc :=
  instances.insertionSort (fun a b => tokenKey a ≤ tokenKey b)

/-- Caller-visible content of the `instances` slice after
`GetInstanceWithTokenRange` returns: the Go code sorts the caller's backing
array in place (`sort.Slice(instances, ...)`), unconditionally, before the
id lookup. -/
def getInstanceWithTokenRangePost (instances : List InstanceDesc) : List InstanceDesc :=
  sortInstances instances

/-- Model of `slices.IndexFunc`: the first index whose element satisfies the
predicate; `none` models the `-1` return. -/
def indexFunc (p : InstanceDesc → Bool) : List InstanceDesc → Option Nat
  | [] => none
  | a :: l => if p a then some 0 else (indexFunc p l).map (fun k => k + 1)

/-- Model of `GetInstanceWithTokenRange` from `ring.go`.  `none` models the
`ring.ErrInstanceNotFound` return; `some (lo, hi)` models the
`v1.FingerprintBounds` built by `v1.NewBounds(minToken, maxToken)`
(modelled from the spec as the inclusive pair, the `v1` package being
outside the sources).  All arithmetic is Go `uint64` arithmetic, hence the
explicit `% U64SIZE`; `step*i + step - 1` is computed as
`(step*i + step) + (U64SIZE - 1)` modulo `U64SIZE`, the unsigned rendering
of subtracting one. -/
def getInstanceWithTokenRange (id : String) (instances : List InstanceDesc) :
    Option (Nat × Nat) :=
  let sorted := sortInstances instances
  match indexFunc (fun inst => inst.id = id) sorted with
  | none => none
  | some idx =>
      let n := sorted.length
      let step := U64MAX / n
      let minToken := (step * idx) % U64SIZE
      let maxTok0 := (step * idx + step + (U64SIZE - 1)) % U64SIZE
      let maxToken := if idx = n - 1 then U64MAX else maxTok0
      some (minToken, maxToken)

/-- Ascending ordering of one instance's tokens, as established in place by
`sort.Slice(inst.Tokens, ...)` in `NewInstanceSortMergeIterator`. -/
def sortTokens (ts : List Nat) : List Nat :=
  ts.insertionSort (fun a b => a ≤ b)

/-- Caller-visible content of the snapshot after `NewInstanceSortMergeIterator`
runs: each instance's `Tokens` slice has been sorted in place (the range
variable `inst` copies the struct, but `inst.Tokens` aliases the caller's
backing array). -/
def newInstanceSortMergeIteratorPost (instances : List InstanceDesc) : List InstanceDesc :=
  instances.map (fun inst => { inst with tokens := sortTokens inst.tokens })

/-- Every `(token, instance index)` pair of the snapshot, in snapshot order:
the per-instance token streams that `NewInstanceSortMergeIterator` builds with
`v1.NewIterWithIndex` (instance `i` tagged on each of its tokens). -/
def allPairsRaw (instances : List InstanceDesc) : List (Nat × Nat) :=
  instances.enum.flatMap (fun p => p.2.tokens.map (fun t => (t, p.1)))

/-- Modelled from the spec: the output of the k-way merge
(`v1.NewHeapIterator` keyed by token value, spec section 4.3, the `v1`
iterator plumbing being outside the sources): every `(token, instance index)`
pair in ascending token order.  The heap's tie-break on equal tokens is
unspecified; the model refines it deterministically via a stable sort, so
ties keep snapshot order. -/
def mergedPairs (instances : List InstanceDesc) : List (Nat × Nat) :=
  (instances.enum.flatMap (fun p => (sortTokens p.2.tokens).map (fun t => (t, p.1)))).insertionSort
    (fun a b => a.1 ≤ b.1)

/-- Model of the mapping closure handed to `v1.NewDedupingIter` in
`NewInstanceSortMergeIterator`: a fold over the merged pairs carrying the Go
`int` state `prevToken` (initially `-1`), emitting
`InstanceWithTokenRange{instances[i], uint32(prevToken+1), token}` for each
pair and then setting `prevToken = int(token)`.  The `uint32` conversion of
the 64-bit `prevToken+1` is the explicit `% U32SIZE`.  The deduper's `Eq`
closure is constantly `false`, so every pair is emitted (its merge closure
panics and is never reached). -/
def mapRanges (instances : List InstanceDesc) : Int → List (Nat × Nat) →
    List InstanceWithTokenRange
  | _, [] => []
  | prev, (t, i) :: rest =>
      { inst := instances.getD i ⟨"", []⟩,
        minToken := ((prev + 1) % (U32SIZE : Int)).toNat,
        maxToken := t } :: mapRanges instances ((t : Nat) : Int) rest

/-- Full output sequence of the iterator returned by
`NewInstanceSortMergeIterator`: the boundary ranges of every merged token. -/
def instanceSortMergeList (instances : List InstanceDesc) : List InstanceWithTokenRange :=
  mapRanges instances (-1) (mergedPairs instances)

/-- Loop state of `GetInstancesWithTokenRanges`: the collected `servers`, the
`firstInst` id (zero value `""` until first set) and the running `lastToken`. -/
structure ScanState where
  servers : List InstanceWithTokenRange
  firstId : String
  lastToken : Nat
deriving DecidableEq

/-- One iteration of the `for it.Next()` loop in `GetInstancesWithTokenRanges`:
record the first instance seen (detected via the `Id == ""` zero-value
sentinel), collect ranges owned by `id`, and track the last `MaxToken`. -/
def scanStep (id : String) (s : ScanState) (r : InstanceWithTokenRange) : ScanState :=
  { servers := if r.inst.id = id then s.servers ++ [r] else s.servers,
    firstId := if s.firstId = "" then r.inst.id else s.firstId,
    lastToken := r.maxToken }

/-- Model of `GetInstancesWithTokenRanges` from `ring.go`: scan the merged
ranges, then append the wraparound range `[lastToken+1, MaxUint32]` (uint32
arithmetic, hence `% U32SIZE`) iff servers were collected and the first
instance of the ring is the requested one. -/
def getInstancesWithTokenRanges (id : String) (instances : List InstanceDesc) :
    List InstanceWithTokenRange :=
  let s := (instanceSortMergeList instances).foldl (scanStep id) ⟨[], "", 0⟩
  if s.servers ≠ [] ∧ s.firstId = id then
    s.servers ++ [{ inst := s.servers.headI.inst,
                    minToken := (s.lastToken + 1) % U32SIZE,
                    maxToken := U32MAX }]
  else s.servers

/-- Closed form of the loop's `firstInst.Id`: the id of the first range whose
owner id is non-empty (the `""` sentinel skips owners with empty ids),
or `""` if there is none. -/
def firstNonEmptyId : List InstanceWithTokenRange → String
  | [] => ""
  | r :: rs => if r.inst.id = "" then firstNonEmptyId rs else r.inst.id

/-- Closed form of the loop's `lastToken`: the `maxToken` of the last range,
or the initial value `d` for an empty list. -/
def lastMaxFrom (d : Nat) : List InstanceWithTokenRange → Nat
  | [] => d
  | r :: rs => lastMaxFrom r.maxToken rs

/-- Merged ranges owned by `id`: what the loop collects in `servers`. -/
def ownedRanges (id : String) (instances : List InstanceDesc) :
    List InstanceWithTokenRange :=
  (instanceSortMergeList instances).filter (fun r => r.inst.id = id)

/-- The id received the extra wraparound range: its result list is longer
than its share of the merged ranges. -/
def receivesWraparound (id : String) (instances : List InstanceDesc) : Prop :=
  (ownedRanges id instances).length < (getInstancesWithTokenRanges id instances).length

instance (id : String) (instances : List InstanceDesc) :
    Decidable (receivesWraparound id instances) := by
  unfold receivesWraparound; infer_instance

/-- Every token of the snapshot, in snapshot order. -/
def allTokens (instances : List InstanceDesc) : List Nat :=
  instances.flatMap (fun inst => inst.tokens)

/-- The id owns the globally smallest token of the snapshot. -/
def ownsMinToken (id : String) (instances : List InstanceDesc) : Prop :=
  ∃ inst ∈ instances, inst.id = id ∧
    ∃ m ∈ inst.tokens, ∀ t ∈ allTokens instances, m ≤ t

instance (id : String) (instances : List InstanceDesc) :
    Decidable (ownsMinToken id instances) := by
  unfold ownsMinToken; infer_instance

/-- The distinct instance ids present in a snapshot. -/
def presentIds (instances : List InstanceDesc) : List String :=
  (instances.map (fun inst => inst.id)).dedup

/-- How many ranges, across the outputs of `GetInstancesWithTokenRanges` for
all ids present in the snapshot, classify token `t` as `Overlap`. -/
def coverCount (instances : List InstanceDesc) (t : Nat) : Nat :=
  ((presentIds instances).map (fun id =>
    (getInstancesWithTokenRanges id instances).countP (fun r => r.cmp t == .overlap))).sum

/-- Modelled from the spec: position classification of a token against the
inclusive fingerprint bounds returned by the single-token partitioner
(spec section 4.1; `v1.FingerprintBounds.Cmp` is outside the sources). -/
def boundsCmp (b : Nat × Nat) (token : Nat) : BoundsCheck :=
  if token < b.1 then .before
  else if token > b.2 then .after
  else .overlap

/-- Whether the (optional) bounds returned by the single-token partitioner
classify `t` as `Overlap`; an error result overlaps nothing. -/
def singleOverlapB (o : Option (Nat × Nat)) (t : Nat) : Bool :=
  match o with
  | none => false
  | some b => boundsCmp b t == .overlap

/-- Token of the last merged pair, or the accumulator for an empty list;
the integer value that `prevToken` holds after the whole fold. -/
def lastTokenOf (prev : Int) : List (Nat × Nat) → Int
  | [] => prev
  | p :: ps => lastTokenOf ((p.1 : Nat) : Int) ps

instance : Inhabited InstanceDesc := ⟨⟨"", []⟩⟩

instance : IsTotal (Nat × Nat) (fun a b => a.1 ≤ b.1) :=
  ⟨fun a b => Nat.le_total a.1 b.1⟩

instance : IsTrans (Nat × Nat) (fun a b => a.1 ≤ b.1) :=
  ⟨fun _ _ _ h1 h2 => le_trans h1 h2⟩

instance : IsTotal Nat (fun a b => a ≤ b) := ⟨Nat.le_total⟩

instance : IsTrans Nat (fun a b => a ≤ b) := ⟨fun _ _ _ h1 h2 => le_trans h1 h2⟩

instance : IsTotal InstanceDesc (fun a b => tokenKey a ≤ tokenKey b) :=
  ⟨fun a b => Nat.le_total (tokenKey a) (tokenKey b)⟩

instance : IsTrans InstanceDesc (fun a b => tokenKey a ≤ tokenKey b) :=
  ⟨fun _ _ _ h1 h2 => le_trans h1 h2⟩

theorem cmp_overlap_iff (r : InstanceWithTokenRange) (t : Nat) :
    (r.cmp t == .overlap) = decide (r.minToken ≤ t ∧ t ≤ r.maxToken) := by
  unfold InstanceWithTokenRange.cmp
  split_ifs with h1 h2
  · have hb : (BoundsCheck.before == BoundsCheck.overlap) = false := rfl
    rw [hb]; symm; rw [decide_eq_false_iff_not]; omega
  · have hb : (BoundsCheck.after == BoundsCheck.overlap) = false := rfl
    rw [hb]; symm; rw [decide_eq_false_iff_not]; omega
  · have hb : (BoundsCheck.overlap == BoundsCheck.overlap) = true := rfl
    rw [hb]; symm; rw [decide_eq_true_eq]; omega

theorem boundsCmp_overlap_iff (b : Nat × Nat) (t : Nat) :
    (boundsCmp b t == .overlap) = decide (b.1 ≤ t ∧ t ≤ b.2) := by
  unfold boundsCmp
  split_ifs with h1 h2
  · have hb : (BoundsCheck.before == BoundsCheck.overlap) = false := rfl
    rw [hb]; symm; rw [decide_eq_false_iff_not]; omega
  · have hb : (BoundsCheck.after == BoundsCheck.overlap) = false := rfl
    rw [hb]; symm; rw [decide_eq_false_iff_not]; omega
  · have hb : (BoundsCheck.overlap == BoundsCheck.overlap) = true := rfl
    rw [hb]; symm; rw [decide_eq_true_eq]; omega

theorem mergedPairs_perm (instances : List InstanceDesc) :
    List.Perm (mergedPairs instances) (allPairsRaw instances) := by
  unfold mergedPairs allPairsRaw
  refine (List.perm_insertionSort _ _).trans ?_
  exact List.Perm.flatMap_left _ (fun p _ =>
    (List.perm_insertionSort _ p.2.tokens).map _)

theorem mergedPairs_sorted (instances : List InstanceDesc) :
    List.Pairwise (fun a b : Nat × Nat => a.1 ≤ b.1) (mergedPairs instances) :=
  List.sorted_insertionSort _ _

theorem map_fst_allPairsRaw (instances : List InstanceDesc) :
    (allPairsRaw instances).map Prod.fst = allTokens instances := by
  unfold allPairsRaw allTokens
  rw [List.map_flatMap]
  have h1 : instances.enum.flatMap
        (fun p => (p.2.tokens.map (fun t => (t, p.1))).map Prod.fst)
      = instances.enum.flatMap (fun p => p.2.tokens) := by
    apply List.flatMap_congr
    intro p _
    rw [List.map_map]
    exact List.map_id _
  rw [h1]
  have h2 : instances.enum.flatMap (fun p => p.2.tokens)
      = (instances.enum.map Prod.snd).flatMap (fun inst => inst.tokens) := by
    rw [List.flatMap_map]
  rw [h2, List.enum_map_snd]

theorem length_allPairsRaw (instances : List InstanceDesc) :
    (allPairsRaw instances).length = (allTokens instances).length := by
  rw [← map_fst_allPairsRaw, List.length_map]

theorem mem_allPairsRaw_token (instances : List InstanceDesc) (p : Nat × Nat)
    (h : p ∈ allPairsRaw instances) : p.1 ∈ allTokens instances := by
  rw [← map_fst_allPairsRaw]
  exact List.mem_map_of_mem Prod.fst h

theorem mem_allPairsRaw_iff (instances : List InstanceDesc) (t i : Nat) :
    (t, i) ∈ allPairsRaw instances ↔
      ∃ h : i < instances.length, t ∈ (instances.get ⟨i, h⟩).tokens := by
  unfold allPairsRaw
  simp only [List.mem_flatMap, List.mem_map]
  constructor
  · rintro ⟨⟨j, inst⟩, hmem, tok, htok, heq⟩
    have h1 : tok = t := congrArg Prod.fst heq
    have h2 : j = i := congrArg Prod.snd heq
    subst h1
    subst h2
    have hj : j < instances.length := List.fst_lt_of_mem_enum hmem
    rw [List.mk_mem_enum_iff_getElem?] at hmem
    refine ⟨hj, ?_⟩
    have hg : instances[j]? = some instances[j] := List.getElem?_eq_getElem hj
    have hinst : instances[j] = inst := Option.some_inj.mp (hg.symm.trans hmem)
    rw [List.get_eq_getElem, hinst]
    exact htok
  · rintro ⟨h, htok⟩
    refine ⟨(i, instances.get ⟨i, h⟩), ?_, t, htok, rfl⟩
    rw [List.mk_mem_enum_iff_getElem?, List.getElem?_eq_getElem h]
    rw [List.get_eq_getElem]

theorem mergedPairs_valid (instances : List InstanceDesc) (p : Nat × Nat)
    (h : p ∈ mergedPairs instances) : p.2 < instances.length := by
  have hmem := (mergedPairs_perm instances).mem_iff.mp h
  obtain ⟨t, i⟩ := p
  obtain ⟨hlt, _⟩ := (mem_allPairsRaw_iff instances t i).mp hmem
  exact hlt

theorem length_mapRanges (instances : List InstanceDesc) (prev : Int)
    (ps : List (Nat × Nat)) :
    (mapRanges instances prev ps).length = ps.length := by
  induction ps generalizing prev with
  | nil => rfl
  | cons p rest ih =>
      obtain ⟨t, i⟩ := p
      simp [mapRanges, ih]

theorem mapRanges_owner_mem (instances : List InstanceDesc) (prev : Int)
    (ps : List (Nat × Nat)) (hvalid : ∀ p ∈ ps, p.2 < instances.length) :
    ∀ r ∈ mapRanges instances prev ps, r.inst ∈ instances := by
  induction ps generalizing prev with
  | nil => intro r hr; simp [mapRanges] at hr
  | cons p rest ih =>
      obtain ⟨t, i⟩ := p
      intro r hr
      simp only [mapRanges, List.mem_cons] at hr
      rcases hr with hr | hr
      · subst hr
        simp only
        have hi : i < instances.length := hvalid (t, i) (List.mem_cons_self ..)
        rw [List.getD_eq_get _ _ hi]
        exact List.get_mem ..
      · exact ih ((t : Nat) : Int) (fun q hq => hvalid q (List.mem_cons_of_mem _ hq)) r hr

theorem owners_mem (instances : List InstanceDesc) :
    ∀ r ∈ instanceSortMergeList instances, r.inst ∈ instances := by
  unfold instanceSortMergeList
  exact mapRanges_owner_mem instances (-1) (mergedPairs instances)
    (fun p hp => mergedPairs_valid instances p hp)

theorem le_lastTokenOf (ps : List (Nat × Nat)) :
    ∀ prev : Int, (∀ p ∈ ps, prev ≤ (p.1 : Int)) →
      List.Pairwise (fun a b : Nat × Nat => a.1 ≤ b.1) ps →
      prev ≤ lastTokenOf prev ps := by
  induction ps with
  | nil => intro prev _ _; exact le_refl _
  | cons p rest ih =>
      intro prev hlb hsort
      have h1 : prev ≤ (p.1 : Int) := hlb p (List.mem_cons_self ..)
      have h2 : ∀ q ∈ rest, (p.1 : Int) ≤ (q.1 : Int) := by
        intro q hq
        exact_mod_cast (List.pairwise_cons.mp hsort).1 q hq
      calc prev ≤ (p.1 : Int) := h1
        _ ≤ lastTokenOf ((p.1 : Nat) : Int) rest :=
            ih ((p.1 : Nat) : Int) h2 (List.pairwise_cons.mp hsort).2

theorem countP_mapRanges (instances : List InstanceDesc) (t : Nat) :
    ∀ (ps : List (Nat × Nat)) (prev : Int),
      List.Pairwise (fun a b : Nat × Nat => a.1 ≤ b.1) ps →
      (∀ p ∈ ps, p.1 < U32MAX) →
      (∀ p ∈ ps, prev ≤ (p.1 : Int)) →
      -1 ≤ prev → prev < (U32MAX : Int) →
      (mapRanges instances prev ps).countP (fun r => r.cmp t == .overlap)
        = if prev < (t : Int) ∧ (t : Int) ≤ lastTokenOf prev ps then 1 else 0 := by
  intro ps
  induction ps with
  | nil =>
      intro prev _ _ _ _ _
      simp only [mapRanges, List.countP_nil, lastTokenOf]
      split_ifs with h
      · omega
      · rfl
  | cons p rest ih =>
      intro prev hsort htok hlb hm1 hub
      obtain ⟨t1, i⟩ := p
      have ht1 : t1 < U32MAX := htok (t1, i) (List.mem_cons_self ..)
      have hpt1 : prev ≤ (t1 : Int) := hlb (t1, i) (List.mem_cons_self ..)
      have hrest_sort := (List.pairwise_cons.mp hsort).2
      have hrest_lb : ∀ q ∈ rest, (t1 : Int) ≤ (q.1 : Int) := by
        intro q hq
        exact_mod_cast (List.pairwise_cons.mp hsort).1 q hq
      have hrest_tok : ∀ q ∈ rest, q.1 < U32MAX := fun q hq =>
        htok q (List.mem_cons_of_mem _ hq)
      have hlast : (t1 : Int) ≤ lastTokenOf (((t1 : Nat) : Int)) rest :=
        le_lastTokenOf rest (((t1 : Nat) : Int)) hrest_lb hrest_sort
      simp only [mapRanges, List.countP_cons]
      rw [ih (((t1 : Nat) : Int)) hrest_sort hrest_tok hrest_lb (by omega) (by exact_mod_cast ht1)]
      have hmod : ((prev + 1) % (U32SIZE : Int)) = prev + 1 := by
        apply Int.emod_eq_of_lt
        · omega
        · unfold U32SIZE
          unfold U32MAX at hub
          omega
      rw [cmp_overlap_iff]
      simp only [hmod]
      have hminLe : (((prev + 1).toNat : Int)) = prev + 1 := by
        rw [Int.toNat_of_nonneg]
        omega
      have hL : lastTokenOf prev ((t1, i) :: rest) = lastTokenOf (((t1 : Nat) : Int)) rest := rfl
      rw [hL]
      simp only [decide_eq_true_eq]
      split_ifs <;> omega

theorem foldl_scanStep (id : String) :
    ∀ (rs : List InstanceWithTokenRange) (acc : List InstanceWithTokenRange)
      (fid : String) (d : Nat),
      rs.foldl (scanStep id) ⟨acc, fid, d⟩ =
        ⟨acc ++ rs.filter (fun r => r.inst.id = id),
         if fid = "" then firstNonEmptyId rs else fid,
         lastMaxFrom d rs⟩ := by
  intro rs
  induction rs with
  | nil =>
      intro acc fid d
      simp only [List.foldl_nil, List.filter_nil, List.append_nil, firstNonEmptyId, lastMaxFrom]
      congr 1
      by_cases hfid : fid = "" <;> simp [hfid]
  | cons r rest ih =>
      intro acc fid d
      simp only [List.foldl_cons, scanStep, List.filter_cons, firstNonEmptyId, lastMaxFrom]
      rw [ih]
      by_cases hid : r.inst.id = id
      · rw [if_pos hid]
        simp only [hid, decide_eq_true_eq]
        by_cases hfid : fid = ""
        · simp only [if_pos hfid]
          by_cases hr0 : r.inst.id = ""
          · simp [hr0, List.cons_append, List.append_assoc]
          · simp [hr0, List.cons_append]
        · simp [hfid, List.cons_append]
      · rw [if_neg hid]
        simp only [decide_eq_true_eq, hid, if_false]
        by_cases hfid : fid = ""
        · by_cases hr0 : r.inst.id = ""
          · simp [hfid, hr0]
          · simp [hfid, hr0]
        · simp [hfid]

theorem getInstances_closed (id : String) (instances : List InstanceDesc) :
    getInstancesWithTokenRanges id instances =
      if ownedRanges id instances ≠ [] ∧
          firstNonEmptyId (instanceSortMergeList instances) = id then
        ownedRanges id instances ++
          [{ inst := (ownedRanges id instances).headI.inst,
             minToken := (lastMaxFrom 0 (instanceSortMergeList instances) + 1) % U32SIZE,
             maxToken := U32MAX }]
      else ownedRanges id instances := by
  unfold getInstancesWithTokenRanges ownedRanges
  rw [foldl_scanStep id (instanceSortMergeList instances) [] "" 0]
  simp only [List.nil_append, if_pos rfl, if_true]

theorem firstNonEmptyId_mem (rs : List InstanceWithTokenRange) (h : rs ≠ []) :
    ∃ r ∈ rs, r.inst.id = firstNonEmptyId rs := by
  induction rs with
  | nil => exact absurd rfl h
  | cons r rest ih =>
      by_cases hr0 : r.inst.id = ""
      · cases hrest : rest with
        | nil =>
            refine ⟨r, List.mem_cons_self .., ?_⟩
            subst hrest
            simp [firstNonEmptyId, hr0]
        | cons q qs =>
            subst hrest
            obtain ⟨w, hw, hid⟩ := ih (by simp)
            refine ⟨w, List.mem_cons_of_mem _ hw, ?_⟩
            simp [firstNonEmptyId, hr0, hid]
      · exact ⟨r, List.mem_cons_self .., by simp [firstNonEmptyId, hr0]⟩

theorem firstNonEmptyId_head (rs : List InstanceWithTokenRange) (h : rs ≠ [])
    (hne : ∀ r ∈ rs, r.inst.id ≠ "") :
    firstNonEmptyId rs = rs.headI.inst.id := by
  cases rs with
  | nil => exact absurd rfl h
  | cons r rest =>
      have := hne r (List.mem_cons_self ..)
      simp [firstNonEmptyId, this]

theorem countP_eq_one_of_unique {α : Type} (l : List α) (p : α → Bool) (a : α)
    (hnd : l.Nodup) (ha : a ∈ l) (hpa : p a = true)
    (huniq : ∀ b ∈ l, p b = true → b = a) : l.countP p = 1 := by
  induction l with
  | nil => exact absurd ha (List.not_mem_nil a)
  | cons x xs ih =>
      rw [List.countP_cons]
      rcases List.mem_cons.mp ha with hax | hax
      · subst hax
        rw [if_pos hpa]
        have hnotin : a ∉ xs := (List.nodup_cons.mp hnd).1
        have hz : xs.countP p = 0 := by
          rw [List.countP_eq_zero]
          intro b hb hpb
          have := huniq b (List.mem_cons_of_mem _ hb) hpb
          subst this
          exact hnotin hb
        omega
      · have hxa : x ≠ a := by
          intro hxx
          subst hxx
          exact (List.nodup_cons.mp hnd).1 hax
        have hpx : ¬ p x = true := fun hp => hxa (huniq x (List.mem_cons_self ..) hp)
        rw [if_neg hpx]
        have := ih (List.nodup_cons.mp hnd).2 hax
          (fun b hb hpb => huniq b (List.mem_cons_of_mem _ hb) hpb)
        omega

theorem countP_or_disjoint {α : Type} (l : List α) (q1 q2 : α → Bool)
    (hdisj : ∀ a ∈ l, ¬(q1 a = true ∧ q2 a = true)) :
    l.countP (fun a => q1 a || q2 a) = l.countP q1 + l.countP q2 := by
  induction l with
  | nil => simp
  | cons x xs ih =>
      simp only [List.countP_cons]
      rw [ih (fun a ha => hdisj a (List.mem_cons_of_mem _ ha))]
      have hx := hdisj x (List.mem_cons_self ..)
      by_cases h1 : q1 x = true
      · have h2 : ¬ q2 x = true := fun h => hx ⟨h1, h⟩
        simp [h1, h2]
        omega
      · by_cases h2 : q2 x = true
        · simp [h1, h2]
          omega
        · simp [h1, h2]

theorem countP_singleton_ite (w : InstanceWithTokenRange)
    (p : InstanceWithTokenRange → Bool) :
    List.countP p [w] = if p w then 1 else 0 := by
  rw [List.countP_cons, List.countP_nil]
  omega

theorem sum_filter_countP (rs : List InstanceWithTokenRange)
    (p : InstanceWithTokenRange → Bool) :
    ∀ ids : List String, ids.Nodup →
      ((ids.map (fun s => (rs.filter (fun r => r.inst.id = s)).countP p)).sum)
        = (rs.filter (fun r => decide (r.inst.id ∈ ids))).countP p := by
  intro ids
  induction ids with
  | nil =>
      intro _
      simp
  | cons s ids ih =>
      intro hnd
      obtain ⟨hs, hnd2⟩ := List.nodup_cons.mp hnd
      simp only [List.map_cons, List.sum_cons]
      rw [ih hnd2]
      rw [List.countP_filter, List.countP_filter, List.countP_filter]
      have hdisj : ∀ r ∈ rs,
          ¬((p r && decide (r.inst.id = s)) = true ∧
            (p r && decide (r.inst.id ∈ ids)) = true) := by
        intro r _ ⟨h1, h2⟩
        have e1 : r.inst.id = s := by
          have := (Bool.and_eq_true ..).mp h1 |>.2
          exact decide_eq_true_eq.mp this
        have e2 : r.inst.id ∈ ids := by
          have := (Bool.and_eq_true ..).mp h2 |>.2
          exact decide_eq_true_eq.mp this
        rw [e1] at e2
        exact hs e2
      have := countP_or_disjoint rs _ _ hdisj
      rw [← this]
      apply List.countP_congr
      intro r _
      by_cases hp : p r = true
      · simp [hp, List.mem_cons]
      · simp only [Bool.not_eq_true] at hp
        simp [hp]

theorem sum_map_indicator (w : Nat) (s0 : String) :
    ∀ ids : List String, ids.Nodup → s0 ∈ ids →
      ∀ f : String → Nat, (∀ s ∈ ids, f s = if s = s0 then w else 0) →
        (ids.map f).sum = w := by
  intro ids
  induction ids with
  | nil =>
      intro _ h0
      exact absurd h0 (List.not_mem_nil s0)
  | cons s ids ih =>
      intro hnd h0 f hf
      obtain ⟨hs, hnd2⟩ := List.nodup_cons.mp hnd
      simp only [List.map_cons, List.sum_cons]
      rcases List.mem_cons.mp h0 with he | he
      · rw [hf s (List.mem_cons_self ..), if_pos he.symm]
        have hz : (ids.map f).sum = 0 := by
          have hall : ∀ s2 ∈ ids, f s2 = 0 := by
            intro s2 hs2
            rw [hf s2 (List.mem_cons_of_mem _ hs2)]
            rw [if_neg]
            intro heq
            have hmem : s ∈ ids := by
              rw [← he, ← heq]
              exact hs2
            exact hs hmem
          rw [List.sum_eq_zero]
          intro x hx
          obtain ⟨s2, hs2, hfx⟩ := List.mem_map.mp hx
          rw [← hfx]
          exact hall s2 hs2
        omega
      · rw [hf s (List.mem_cons_self ..), if_neg (by rintro rfl; exact hs he)]
        rw [ih hnd2 he f (fun s2 hs2 => hf s2 (List.mem_cons_of_mem _ hs2))]
        omega

theorem lastMax_mapRanges (instances : List InstanceDesc) :
    ∀ (ps : List (Nat × Nat)) (prev : Int) (d : Nat), ps ≠ [] →
      ((lastMaxFrom d (mapRanges instances prev ps) : Nat) : Int) = lastTokenOf prev ps := by
  intro ps
  induction ps with
  | nil => intro prev d h; exact absurd rfl h
  | cons p rest ih =>
      intro prev d _
      obtain ⟨t, i⟩ := p
      cases hrest : rest with
      | nil =>
          simp [mapRanges, lastMaxFrom, lastTokenOf]
      | cons q qs =>
          have hne : rest ≠ [] := by rw [hrest]; simp
          rw [← hrest]
          simp only [mapRanges, lastMaxFrom, lastTokenOf]
          exact ih ((t : Nat) : Int) t hne

theorem lastTokenOf_mem :
    ∀ (ps : List (Nat × Nat)), ps ≠ [] → ∀ prev : Int,
      ∃ p ∈ ps, ((p.1 : Nat) : Int) = lastTokenOf prev ps := by
  intro ps
  induction ps with
  | nil => intro h; exact absurd rfl h
  | cons p rest ih =>
      intro _ prev
      cases hrest : rest with
      | nil =>
          refine ⟨p, List.mem_cons_self .., ?_⟩
          subst hrest
          simp [lastTokenOf]
      | cons q qs =>
          have hne : rest ≠ [] := by rw [hrest]; simp
          rw [← hrest]
          obtain ⟨w, hw, hval⟩ := ih hne ((p.1 : Nat) : Int)
          exact ⟨w, List.mem_cons_of_mem _ hw, hval⟩

theorem mergedPairs_tokens_lt (instances : List InstanceDesc)
    (htok : ∀ tk ∈ allTokens instances, tk < U32MAX) :
    ∀ p ∈ mergedPairs instances, p.1 < U32MAX := by
  intro p hp
  have hmem := (mergedPairs_perm instances).mem_iff.mp hp
  exact htok p.1 (mem_allPairsRaw_token instances p hmem)

theorem mergedPairs_ne (instances : List InstanceDesc)
    (hne : allTokens instances ≠ []) : mergedPairs instances ≠ [] := by
  have hlen : (mergedPairs instances).length = (allTokens instances).length := by
    rw [(mergedPairs_perm instances).length_eq, length_allPairsRaw]
  intro hempty
  rw [hempty] at hlen
  simp only [List.length_nil] at hlen
  exact hne (List.eq_nil_of_length_eq_zero hlen.symm)

theorem countP_merge_list (instances : List InstanceDesc) (t : Nat)
    (htok : ∀ tk ∈ allTokens instances, tk < U32MAX) :
    (instanceSortMergeList instances).countP (fun r => r.cmp t == .overlap)
      = if (t : Int) ≤ lastTokenOf (-1) (mergedPairs instances) then 1 else 0 := by
  unfold instanceSortMergeList
  rw [countP_mapRanges instances t (mergedPairs instances) (-1)
    (mergedPairs_sorted instances)
    (mergedPairs_tokens_lt instances htok)
    (fun p _ => by omega)
    (le_refl _)
    (by unfold U32MAX; omega)]
  have hiff : (-1 < (t : Int) ∧ (t : Int) ≤ lastTokenOf (-1) (mergedPairs instances)) ↔
      ((t : Int) ≤ lastTokenOf (-1) (mergedPairs instances)) := by
    constructor
    · exact fun h => h.2
    · intro h
      refine ⟨?_, h⟩
      omega
  simp only [hiff]

theorem globalLast_spec (instances : List InstanceDesc)
    (hne : allTokens instances ≠ [])
    (htok : ∀ tk ∈ allTokens instances, tk < U32MAX) :
    ((lastMaxFrom 0 (instanceSortMergeList instances) : Nat) : Int)
        = lastTokenOf (-1) (mergedPairs instances) ∧
      lastMaxFrom 0 (instanceSortMergeList instances) < U32MAX := by
  unfold instanceSortMergeList
  have hmne := mergedPairs_ne instances hne
  have heq := lastMax_mapRanges instances (mergedPairs instances) (-1) 0 hmne
  refine ⟨heq, ?_⟩
  obtain ⟨p, hp, hval⟩ := lastTokenOf_mem (mergedPairs instances) hmne (-1)
  have hlt := mergedPairs_tokens_lt instances htok p hp
  have hint : ((lastMaxFrom 0 (mapRanges instances (-1) (mergedPairs instances)) : Nat) : Int)
      = ((p.1 : Nat) : Int) := by
    rw [heq, hval]
  have hnat : lastMaxFrom 0 (mapRanges instances (-1) (mergedPairs instances)) = p.1 := by
    exact_mod_cast hint
  omega

/-- Claim C1 (amended): the union, over all ids present in a snapshot, of the
multi-token partitioner outputs covers every token of `[0, MaxUint32]`
exactly once (no gaps, no overlaps, wraparound segment included) — provided
the snapshot holds at least one token and every token is strictly below
`MaxUint32` (the counterexample shows the top-boundary failure). -/
theorem C1_multi_token_coverage (instances : List InstanceDesc)
    (hne : allTokens instances ≠ [])
    (htok : ∀ tk ∈ allTokens instances, tk < U32MAX) :
    ∀ t ≤ U32MAX, coverCount instances t = 1 := by
  intro t ht
  have hmne := mergedPairs_ne instances hne
  have hrs_ne : instanceSortMergeList instances ≠ [] := by
    have : (instanceSortMergeList instances).length = (mergedPairs instances).length :=
      length_mapRanges instances (-1) (mergedPairs instances)
    intro hempty
    rw [hempty] at this
    simp only [List.length_nil] at this
    exact hmne (List.eq_nil_of_length_eq_zero this.symm)
  obtain ⟨hglast, hgl_lt⟩ := globalLast_spec instances hne htok
  obtain ⟨r0, hr0, hr0id⟩ := firstNonEmptyId_mem (instanceSortMergeList instances) hrs_ne
  have hs0_present : firstNonEmptyId (instanceSortMergeList instances) ∈ presentIds instances := by
    unfold presentIds
    rw [List.mem_dedup]
    rw [← hr0id]
    exact List.mem_map_of_mem _ (owners_mem instances r0 hr0)
  have howned0 : ownedRanges (firstNonEmptyId (instanceSortMergeList instances)) instances ≠ [] := by
    unfold ownedRanges
    intro hempty
    have hmemf : r0 ∈ (instanceSortMergeList instances).filter
        (fun r => decide (r.inst.id = firstNonEmptyId (instanceSortMergeList instances))) :=
      List.mem_filter.mpr ⟨hr0, decide_eq_true_eq.mpr hr0id⟩
    rw [hempty] at hmemf
    exact List.not_mem_nil r0 hmemf
  have hmod : (lastMaxFrom 0 (instanceSortMergeList instances) + 1) % U32SIZE
      = lastMaxFrom 0 (instanceSortMergeList instances) + 1 := by
    apply Nat.mod_eq_of_lt
    unfold U32SIZE
    unfold U32MAX at hgl_lt
    omega
  have hdecomp : ∀ s : String,
      (getInstancesWithTokenRanges s instances).countP (fun r => r.cmp t == .overlap)
        = (ownedRanges s instances).countP (fun r => r.cmp t == .overlap)
          + (if s = firstNonEmptyId (instanceSortMergeList instances)
              then (if lastMaxFrom 0 (instanceSortMergeList instances) + 1 ≤ t ∧ t ≤ U32MAX
                then 1 else 0)
              else 0) := by
    intro s
    rw [getInstances_closed]
    by_cases hs : s = firstNonEmptyId (instanceSortMergeList instances)
    · rw [if_pos ⟨by rw [hs]; exact howned0, hs.symm⟩, if_pos hs]
      rw [List.countP_append, countP_singleton_ite]
      simp only [cmp_overlap_iff, hmod, decide_eq_true_eq]
    · rw [if_neg (by rintro ⟨h1, h2⟩; exact hs h2.symm), if_neg hs]
      omega
  unfold coverCount
  rw [List.map_congr_left (fun s _ => hdecomp s)]
  rw [List.sum_map_add]
  have hfirst : ((presentIds instances).map (fun s =>
      (ownedRanges s instances).countP (fun r => r.cmp t == .overlap))).sum
        = (instanceSortMergeList instances).countP (fun r => r.cmp t == .overlap) := by
    unfold ownedRanges
    rw [sum_filter_countP (instanceSortMergeList instances) _ (presentIds instances)
      (List.nodup_dedup _)]
    congr 1
    apply List.filter_eq_self.mpr
    intro r hr
    rw [decide_eq_true_eq]
    unfold presentIds
    rw [List.mem_dedup]
    exact List.mem_map_of_mem _ (owners_mem instances r hr)
  rw [hfirst]
  rw [sum_map_indicator _ _ (presentIds instances) (List.nodup_dedup _) hs0_present _
    (fun s _ => rfl)]
  rw [countP_merge_list instances t htok]
  rw [← hglast]
  have hcast : ((lastMaxFrom 0 (instanceSortMergeList instances) : Nat) : Int) ≥ (t : Int) ↔
      t ≤ lastMaxFrom 0 (instanceSortMergeList instances) := by
    constructor <;> intro h <;> exact_mod_cast h
  by_cases hc : t ≤ lastMaxFrom 0 (instanceSortMergeList instances)
  · rw [if_pos (by exact_mod_cast hc)]
    rw [if_neg (by omega)]
  · rw [if_neg (by intro h; exact hc (by exact_mod_cast h))]
    rw [if_pos (by omega)]

theorem headI_mem_of_ne {α : Type} [Inhabited α] (l : List α) (h : l ≠ []) :
    l.headI ∈ l := by
  cases l with
  | nil => exact absurd rfl h
  | cons a as => exact List.mem_cons_self ..

theorem merged_head_min (instances : List InstanceDesc)
    (h : mergedPairs instances ≠ []) :
    ∀ p ∈ mergedPairs instances, (mergedPairs instances).headI.1 ≤ p.1 := by
  have hsort := mergedPairs_sorted instances
  cases hm : mergedPairs instances with
  | nil => exact absurd hm h
  | cons hd rest =>
      rw [hm] at hsort
      intro p hp
      rcases List.mem_cons.mp hp with he | he
      · subst he
        simp
      · simp only [List.headI_cons]
        exact (List.pairwise_cons.mp hsort).1 p he

theorem mergeList_head (instances : List InstanceDesc)
    (h : mergedPairs instances ≠ []) :
    (instanceSortMergeList instances).headI.inst
      = instances.getD (mergedPairs instances).headI.2 ⟨"", []⟩ := by
  unfold instanceSortMergeList
  cases hm : mergedPairs instances with
  | nil => exact absurd hm h
  | cons hd rest =>
      obtain ⟨t, i⟩ := hd
      simp [mapRanges]

theorem mem_allTokens_of (instances : List InstanceDesc) (inst : InstanceDesc)
    (m : Nat) (hinst : inst ∈ instances) (hm : m ∈ inst.tokens) :
    m ∈ allTokens instances := by
  unfold allTokens
  exact List.mem_flatMap.mpr ⟨inst, hinst, hm⟩

theorem allTokens_to_pair (instances : List InstanceDesc) (tk : Nat)
    (h : tk ∈ allTokens instances) : ∃ p ∈ allPairsRaw instances, p.1 = tk := by
  rw [← map_fst_allPairsRaw] at h
  obtain ⟨p, hp, hval⟩ := List.mem_map.mp h
  exact ⟨p, hp, hval⟩

theorem receivesWrap_iff_cond (id : String) (instances : List InstanceDesc) :
    receivesWraparound id instances ↔
      (ownedRanges id instances ≠ [] ∧
        firstNonEmptyId (instanceSortMergeList instances) = id) := by
  unfold receivesWraparound
  rw [getInstances_closed]
  by_cases hc : ownedRanges id instances ≠ [] ∧
      firstNonEmptyId (instanceSortMergeList instances) = id
  · rw [if_pos hc]
    simp only [List.length_append, List.length_cons, List.length_nil]
    constructor
    · exact fun _ => hc
    · intro _
      omega
  · rw [if_neg hc]
    constructor
    · intro hlt
      exact absurd rfl (Nat.ne_of_lt hlt)
    · intro hcontra
      exact absurd hcontra hc

theorem nodup_fst_allPairs (instances : List InstanceDesc)
    (hnd : (allTokens instances).Nodup) :
    ((allPairsRaw instances).map Prod.fst).Nodup := by
  rw [map_fst_allPairsRaw]
  exact hnd

theorem ownsMin_unique (instances : List InstanceDesc)
    (hnd : (allTokens instances).Nodup) (a b : String)
    (ha : ownsMinToken a instances) (hb : ownsMinToken b instances) : a = b := by
  obtain ⟨instA, hmemA, hidA, mA, htokA, hminA⟩ := ha
  obtain ⟨instB, hmemB, hidB, mB, htokB, hminB⟩ := hb
  have hAT : mA ∈ allTokens instances := mem_allTokens_of instances instA mA hmemA htokA
  have hBT : mB ∈ allTokens instances := mem_allTokens_of instances instB mB hmemB htokB
  have hm_eq : mA = mB := le_antisymm (hminA mB hBT) (hminB mA hAT)
  obtain ⟨⟨jA, hjA⟩, hgetA⟩ := List.mem_iff_get.mp hmemA
  obtain ⟨⟨jB, hjB⟩, hgetB⟩ := List.mem_iff_get.mp hmemB
  have hpA : (mA, jA) ∈ allPairsRaw instances :=
    (mem_allPairsRaw_iff instances mA jA).mpr ⟨hjA, by rw [hgetA]; exact htokA⟩
  have hpB : (mA, jB) ∈ allPairsRaw instances :=
    (mem_allPairsRaw_iff instances mA jB).mpr ⟨hjB, by rw [hgetB, hm_eq]; exact htokB⟩
  have hpair_eq : (mA, jA) = (mA, jB) :=
    List.inj_on_of_nodup_map (nodup_fst_allPairs instances hnd) hpA hpB rfl
  have hj_eq : jA = jB := congrArg Prod.snd hpair_eq
  have hinst_eq : instA = instB := by
    rw [← hgetA, ← hgetB]
    congr 1
    exact Fin.ext hj_eq
  rw [← hidA, ← hidB, hinst_eq]

theorem head_owner_ownsMin (instances : List InstanceDesc)
    (hne : allTokens instances ≠ []) :
    ownsMinToken ((instanceSortMergeList instances).headI.inst.id) instances := by
  have hmne := mergedPairs_ne instances hne
  have hhd_mem : (mergedPairs instances).headI ∈ mergedPairs instances :=
    headI_mem_of_ne _ hmne
  have hhd_raw : (mergedPairs instances).headI ∈ allPairsRaw instances :=
    (mergedPairs_perm instances).mem_iff.mp hhd_mem
  obtain ⟨hvalid, htokmem⟩ := (mem_allPairsRaw_iff instances
    (mergedPairs instances).headI.1 (mergedPairs instances).headI.2).mp (by
      have : ((mergedPairs instances).headI.1, (mergedPairs instances).headI.2)
          = (mergedPairs instances).headI := rfl
      rw [this]
      exact hhd_raw)
  have hinst_eq : (instanceSortMergeList instances).headI.inst
      = instances.get ⟨(mergedPairs instances).headI.2, hvalid⟩ := by
    rw [mergeList_head instances hmne]
    rw [List.getD_eq_getElem _ _ hvalid]
    rw [List.get_eq_getElem]
  refine ⟨instances.get ⟨(mergedPairs instances).headI.2, hvalid⟩,
    List.get_mem .., by rw [hinst_eq], (mergedPairs instances).headI.1, htokmem, ?_⟩
  intro tk htk
  obtain ⟨p, hp, hval⟩ := allTokens_to_pair instances tk htk
  have hp_merged : p ∈ mergedPairs instances :=
    (mergedPairs_perm instances).mem_iff.mpr hp
  rw [← hval]
  exact merged_head_min instances hmne p hp_merged

theorem mergeList_length (instances : List InstanceDesc) :
    (instanceSortMergeList instances).length = (allTokens instances).length := by
  unfold instanceSortMergeList
  rw [length_mapRanges, (mergedPairs_perm instances).length_eq, length_allPairsRaw]

theorem receivesWrap_iff_ownsMin (instances : List InstanceDesc)
    (hnd : (allTokens instances).Nodup)
    (hid : ∀ inst ∈ instances, inst.id ≠ "") (id : String) :
    receivesWraparound id instances ↔ ownsMinToken id instances := by
  by_cases hne : allTokens instances = []
  · have hrs : instanceSortMergeList instances = [] := by
      have := mergeList_length instances
      rw [hne] at this
      simp only [List.length_nil] at this
      exact List.eq_nil_of_length_eq_zero this
    constructor
    · intro hw
      rw [receivesWrap_iff_cond] at hw
      unfold ownedRanges at hw
      rw [hrs] at hw
      simp at hw
    · rintro ⟨inst, hmem, _, m, htok, _⟩
      have : m ∈ allTokens instances := mem_allTokens_of instances inst m hmem htok
      rw [hne] at this
      exact absurd this (List.not_mem_nil m)
  · have hmne := mergedPairs_ne instances hne
    have hrs_ne : instanceSortMergeList instances ≠ [] := by
      intro hempty
      have := mergeList_length instances
      rw [hempty] at this
      simp only [List.length_nil] at this
      exact hne (List.eq_nil_of_length_eq_zero this.symm)
    have hfid : firstNonEmptyId (instanceSortMergeList instances)
        = (instanceSortMergeList instances).headI.inst.id :=
      firstNonEmptyId_head _ hrs_ne
        (fun r hr => hid r.inst (owners_mem instances r hr))
    have hhead_owns := head_owner_ownsMin instances hne
    rw [receivesWrap_iff_cond, hfid]
    constructor
    · rintro ⟨_, heq⟩
      rw [← heq]
      exact hhead_owns
    · intro howns
      have heq : (instanceSortMergeList instances).headI.inst.id = id :=
        ownsMin_unique instances hnd _ _ hhead_owns howns
      refine ⟨?_, heq⟩
      unfold ownedRanges
      intro hempty
      have hmemf : (instanceSortMergeList instances).headI ∈
          (instanceSortMergeList instances).filter (fun r => decide (r.inst.id = id)) :=
        List.mem_filter.mpr ⟨headI_mem_of_ne _ hrs_ne, decide_eq_true_eq.mpr heq⟩
      rw [hempty] at hmemf
      exact List.not_mem_nil _ hmemf

theorem mergedPairs_strict_sorted (instances : List InstanceDesc)
    (hnd : (allTokens instances).Nodup) :
    List.Pairwise (fun a b : Nat × Nat => a.1 < b.1) (mergedPairs instances) := by
  have hsort := mergedPairs_sorted instances
  have hmapnd : ((mergedPairs instances).map Prod.fst).Nodup := by
    have hperm : List.Perm ((mergedPairs instances).map Prod.fst)
        ((allPairsRaw instances).map Prod.fst) := (mergedPairs_perm instances).map _
    rw [map_fst_allPairsRaw] at hperm
    exact hperm.nodup_iff.mpr hnd
  have hne : List.Pairwise (fun a b : Nat × Nat => a.1 ≠ b.1) (mergedPairs instances) :=
    (List.pairwise_map).mp hmapnd
  exact (hsort.and hne).imp (fun h => lt_of_le_of_ne h.1 h.2)

theorem mapRanges_min_le_max (instances : List InstanceDesc) :
    ∀ (ps : List (Nat × Nat)) (prev : Int),
      List.Pairwise (fun a b : Nat × Nat => a.1 < b.1) ps →
      (∀ p ∈ ps, p.1 ≤ U32MAX) →
      -1 ≤ prev →
      (∀ p ∈ ps, prev < (p.1 : Int)) →
      ∀ r ∈ mapRanges instances prev ps, r.minToken ≤ r.maxToken := by
  intro ps
  induction ps with
  | nil => intro prev _ _ _ _ r hr; simp [mapRanges] at hr
  | cons p rest ih =>
      intro prev hsort htok hm1 hlt r hr
      obtain ⟨t, i⟩ := p
      have ht : t ≤ U32MAX := htok (t, i) (List.mem_cons_self ..)
      have hpt : prev < (t : Int) := hlt (t, i) (List.mem_cons_self ..)
      simp only [mapRanges, List.mem_cons] at hr
      rcases hr with hr | hr
      · subst hr
        simp only
        have hmod : (prev + 1) % (U32SIZE : Int) = prev + 1 := by
          apply Int.emod_eq_of_lt
          · omega
          · unfold U32SIZE
            unfold U32MAX at ht
            omega
        rw [hmod]
        omega
      · exact ih ((t : Nat) : Int) (List.pairwise_cons.mp hsort).2
          (fun q hq => htok q (List.mem_cons_of_mem _ hq))
          (by omega)
          (fun q hq => by
            have := (List.pairwise_cons.mp hsort).1 q hq
            omega)
          r hr

theorem mapRanges_get (instances : List InstanceDesc) :
    ∀ (ps : List (Nat × Nat)) (prev : Int) (k : Nat) (h1 : k < ps.length)
      (h2 : k < (mapRanges instances prev ps).length),
      (mapRanges instances prev ps).get ⟨k, h2⟩ =
        { inst := instances.getD (ps.get ⟨k, h1⟩).2 ⟨"", []⟩,
          minToken := ((((if k = 0 then prev
              else ((ps.get ⟨k - 1, by omega⟩).1 : Int))) + 1) % (U32SIZE : Int)).toNat,
          maxToken := (ps.get ⟨k, h1⟩).1 } := by
  intro ps
  induction ps with
  | nil => intro prev k h1 _; simp at h1
  | cons p rest ih =>
      intro prev k h1 h2
      obtain ⟨t, i⟩ := p
      cases k with
      | zero => simp [mapRanges]
      | succ k2 =>
          have h1' : k2 < rest.length := by
            simp only [List.length_cons] at h1
            omega
          have h2' : k2 < (mapRanges instances ((t : Nat) : Int) rest).length := by
            rw [length_mapRanges]
            exact h1'
          have hstep := ih ((t : Nat) : Int) k2 h1' h2'
          simp only [mapRanges, List.get_cons_succ]
          rw [hstep]
          congr 1
          cases k2 with
          | zero => simp
          | succ k3 =>
              simp only [Nat.succ_ne_zero, if_false, Nat.succ_sub_one]
              have : k3 < rest.length := by omega
              simp [List.get_cons_succ]

theorem indexFunc_none_iff (p : InstanceDesc → Bool) (l : List InstanceDesc) :
    indexFunc p l = none ↔ ∀ a ∈ l, ¬ p a = true := by
  induction l with
  | nil => simp [indexFunc]
  | cons x xs ih =>
      simp only [indexFunc]
      by_cases hx : p x = true
      · simp [hx]
      · simp only [hx, if_false]
        constructor
        · intro h
          have hxs : indexFunc p xs = none := by
            cases he : indexFunc p xs with
            | none => rfl
            | some k => rw [he] at h; simp at h
          intro a ha
          rcases List.mem_cons.mp ha with he | he
          · subst he; exact hx
          · exact (ih.mp hxs) a he
        · intro h
          have : indexFunc p xs = none := ih.mpr (fun a ha => h a (List.mem_cons_of_mem _ ha))
          rw [this]
          rfl

theorem indexFunc_some_lt (p : InstanceDesc → Bool) :
    ∀ (l : List InstanceDesc) (i : Nat), indexFunc p l = some i → i < l.length := by
  intro l
  induction l with
  | nil => intro i h; simp [indexFunc] at h
  | cons x xs ih =>
      intro i h
      simp only [indexFunc] at h
      by_cases hx : p x = true
      · rw [if_pos hx] at h
        have : i = 0 := (Option.some_inj.mp h).symm
        subst this
        simp
      · rw [if_neg hx] at h
        cases he : indexFunc p xs with
        | none => rw [he] at h; simp at h
        | some k =>
            rw [he] at h
            have hik : i = k + 1 := (Option.some_inj.mp h).symm
            subst hik
            have := ih k he
            simp only [List.length_cons]
            omega

theorem indexFunc_self {f : InstanceDesc → String} :
    ∀ (l : List InstanceDesc), (l.map f).Nodup →
      ∀ (k : Nat) (h : k < l.length),
        indexFunc (fun x => f x = f (l.get ⟨k, h⟩)) l = some k := by
  intro l
  induction l with
  | nil => intro _ k h; simp at h
  | cons x xs ih =>
      intro hnd k h
      obtain ⟨hx_notin, hnd2⟩ := List.nodup_cons.mp (by
        simpa only [List.map_cons] using hnd)
      cases k with
      | zero =>
          simp only [indexFunc, List.get_cons_zero]
          rw [if_pos (by simp)]
      | succ k2 =>
          have hk2 : k2 < xs.length := by
            simp only [List.length_cons] at h
            omega
          have hget : (x :: xs).get ⟨k2 + 1, h⟩ = xs.get ⟨k2, hk2⟩ := rfl
          simp only [indexFunc, hget]
          have hxne : ¬ (decide (f x = f (xs.get ⟨k2, hk2⟩)) = true) := by
            rw [decide_eq_true_eq]
            intro heq
            apply hx_notin
            rw [heq]
            exact List.mem_map_of_mem f (List.get_mem ..)
          rw [if_neg hxne]
          rw [ih hnd2 k2 hk2]
          rfl

theorem uint64_sub_one (a : Nat) (h1 : 1 ≤ a) (h2 : a ≤ U64MAX) :
    (a + (U64SIZE - 1)) % U64SIZE = a - 1 := by
  have he : a + (U64SIZE - 1) = (a - 1) + U64SIZE := by
    unfold U64SIZE
    omega
  rw [he, Nat.add_mod_right]
  apply Nat.mod_eq_of_lt
  unfold U64SIZE
  unfold U64MAX at h2
  omega

theorem getInstance_formula (id : String) (instances : List InstanceDesc) (i : Nat)
    (hfind : indexFunc (fun inst => inst.id = id) (sortInstances instances) = some i)
    (h64 : instances.length < U64SIZE) :
    getInstanceWithTokenRange id instances =
      some (i * (U64MAX / instances.length),
        if i = instances.length - 1 then U64MAX
        else i * (U64MAX / instances.length) + (U64MAX / instances.length) - 1) := by
  have hlen : (sortInstances instances).length = instances.length :=
    (List.perm_insertionSort _ instances).length_eq
  have hi : i < instances.length := by
    rw [← hlen]
    exact indexFunc_some_lt _ _ i hfind
  have hn : 0 < instances.length := by omega
  have hnle : instances.length ≤ U64MAX := by
    unfold U64SIZE at h64
    unfold U64MAX
    omega
  have hstep1 : 1 ≤ U64MAX / instances.length := (Nat.one_le_div_iff hn).mpr hnle
  have hstepn : (U64MAX / instances.length) * instances.length ≤ U64MAX :=
    Nat.div_mul_le_self U64MAX instances.length
  have hmul_le : (U64MAX / instances.length) * (i + 1) ≤ U64MAX := by
    calc (U64MAX / instances.length) * (i + 1)
        ≤ (U64MAX / instances.length) * instances.length :=
          Nat.mul_le_mul_left _ (by omega)
      _ ≤ U64MAX := hstepn
  unfold getInstanceWithTokenRange
  simp only [hfind]
  rw [hlen]
  have hmin : (U64MAX / instances.length * i) % U64SIZE = U64MAX / instances.length * i := by
    apply Nat.mod_eq_of_lt
    have : U64MAX / instances.length * i ≤ U64MAX / instances.length * (i + 1) :=
      Nat.mul_le_mul_left _ (by omega)
    unfold U64SIZE
    unfold U64MAX at hmul_le this ⊢
    omega
  have hmax : (U64MAX / instances.length * i + U64MAX / instances.length + (U64SIZE - 1))
      % U64SIZE = U64MAX / instances.length * i + U64MAX / instances.length - 1 := by
    apply uint64_sub_one
    · omega
    · have : U64MAX / instances.length * i + U64MAX / instances.length
          = U64MAX / instances.length * (i + 1) := by ring
      omega
  rw [hmin, hmax]
  rw [Nat.mul_comm (U64MAX / instances.length) i]

theorem countP_eq_range_countP {α : Type} (l : List α) (p : α → Bool) :
    ∀ q : Nat → Bool, (∀ k (h : k < l.length), p (l.get ⟨k, h⟩) = q k) →
      l.countP p = (List.range l.length).countP q := by
  induction l with
  | nil => intro q _; simp
  | cons x xs ih =>
      intro q hpq
      rw [List.countP_cons]
      simp only [List.length_cons]
      rw [List.range_succ_eq_map, List.countP_cons, List.countP_map]
      have hx : p x = q 0 := hpq 0 (by simp)
      have hxs := ih (fun k => q (k + 1)) (fun k h => hpq (k + 1) (by simpa using Nat.succ_lt_succ h))
      rw [hxs, hx]
      rfl

theorem range_tiling (n t : Nat) (hn : 0 < n) (hnle : n ≤ U64MAX) (ht : t ≤ U64MAX) :
    (List.range n).countP (fun k =>
      decide (k * (U64MAX / n) ≤ t ∧
        t ≤ (if k = n - 1 then U64MAX
          else k * (U64MAX / n) + (U64MAX / n) - 1))) = 1 := by
  have hstep1 : 1 ≤ U64MAX / n := (Nat.one_le_div_iff hn).mpr hnle
  have hstepn : (U64MAX / n) * n ≤ U64MAX := Nat.div_mul_le_self U64MAX n
  have hdm : U64MAX / n * (t / (U64MAX / n)) + t % (U64MAX / n) = t :=
    Nat.div_add_mod t (U64MAX / n)
  have hmodlt : t % (U64MAX / n) < U64MAX / n := Nat.mod_lt t (by omega)
  apply countP_eq_one_of_unique (List.range n) _ (min (t / (U64MAX / n)) (n - 1))
    (List.nodup_range n)
    (List.mem_range.mpr (by omega))
  · rw [decide_eq_true_eq]
    constructor
    · have h1 : min (t / (U64MAX / n)) (n - 1) ≤ t / (U64MAX / n) := Nat.min_le_left ..
      have h2 : min (t / (U64MAX / n)) (n - 1) * (U64MAX / n)
          ≤ (t / (U64MAX / n)) * (U64MAX / n) := Nat.mul_le_mul_right _ h1
      have h3 : (t / (U64MAX / n)) * (U64MAX / n) ≤ t := Nat.div_mul_le_self ..
      omega
    · by_cases hc : min (t / (U64MAX / n)) (n - 1) = n - 1
      · rw [if_pos hc]
        exact ht
      · rw [if_neg hc]
        have hmin : min (t / (U64MAX / n)) (n - 1) = t / (U64MAX / n) := by
          rcases Nat.le_total (t / (U64MAX / n)) (n - 1) with hle | hle
          · exact Nat.min_eq_left hle
          · exact absurd (Nat.min_eq_right hle) hc
        rw [hmin]
        have : t / (U64MAX / n) * (U64MAX / n) = U64MAX / n * (t / (U64MAX / n)) :=
          Nat.mul_comm ..
        omega
  · intro k hk hpk
    have hk_lt : k < n := List.mem_range.mp hk
    rw [decide_eq_true_eq] at hpk
    by_contra hne
    rcases Nat.lt_or_ge k (min (t / (U64MAX / n)) (n - 1)) with hlt | hge
    · have hk_ne_last : k ≠ n - 1 := by omega
      rw [if_neg hk_ne_last] at hpk
      have h1 : (k + 1) * (U64MAX / n) ≤ min (t / (U64MAX / n)) (n - 1) * (U64MAX / n) :=
        Nat.mul_le_mul_right _ (by omega)
      have h2 : min (t / (U64MAX / n)) (n - 1) * (U64MAX / n)
          ≤ (t / (U64MAX / n)) * (U64MAX / n) :=
        Nat.mul_le_mul_right _ (Nat.min_le_left ..)
      have h3 : (t / (U64MAX / n)) * (U64MAX / n) ≤ t := Nat.div_mul_le_self ..
      have h4 : (k + 1) * (U64MAX / n) = k * (U64MAX / n) + U64MAX / n := by ring
      omega
    · have hgt : k > min (t / (U64MAX / n)) (n - 1) := by omega
      by_cases hc : t / (U64MAX / n) ≤ n - 1
      · have hmin : min (t / (U64MAX / n)) (n - 1) = t / (U64MAX / n) :=
          Nat.min_eq_left hc
        rw [hmin] at hgt
        have h1 : (t / (U64MAX / n) + 1) * (U64MAX / n) ≤ k * (U64MAX / n) :=
          Nat.mul_le_mul_right _ (by omega)
        have h2 : (t / (U64MAX / n) + 1) * (U64MAX / n)
            = (t / (U64MAX / n)) * (U64MAX / n) + U64MAX / n := by ring
        have h3 : (t / (U64MAX / n)) * (U64MAX / n) = U64MAX / n * (t / (U64MAX / n)) :=
          Nat.mul_comm ..
        omega
      · have hmin : min (t / (U64MAX / n)) (n - 1) = n - 1 :=
          Nat.min_eq_right (by omega)
        omega

/-- Claim C3: for a snapshot whose largest token equals MaxUint32, the `+1`
for the wraparound range's min is plain `uint32` arithmetic and silently
wraps to `0`: the single-instance snapshot holding token MaxUint32 receives
the wraparound range `[0, MaxUint32]` — a duplicate of its first range —
instead of a clamped one, contradicting the claim and the spec's numeric
note. -/
theorem C3_wraparound_plus_one_wraps :
    getInstancesWithTokenRanges "a" [⟨"a", [U32MAX]⟩]
      = [⟨⟨"a", [U32MAX]⟩, 0, U32MAX⟩, ⟨⟨"a", [U32MAX]⟩, 0, U32MAX⟩] ∧
    coverCount [⟨"a", [U32MAX]⟩] 0 = 2 := by
  constructor
  · rfl
  · rfl

/-- Claim C4 (counterexample): the caller's snapshot is not left unchanged:
sorting is done in place, so an unsorted input is visibly reordered by
`GetInstanceWithTokenRange`, and an instance's unsorted `Tokens` slice is
visibly reordered by `NewInstanceSortMergeIterator`. -/
theorem C4_counterexample :
    getInstanceWithTokenRangePost [⟨"b", [20, 10]⟩, ⟨"a", [5]⟩]
        ≠ [⟨"b", [20, 10]⟩, ⟨"a", [5]⟩] ∧
      newInstanceSortMergeIteratorPost [⟨"b", [20, 10]⟩, ⟨"a", [5]⟩]
        ≠ [⟨"b", [20, 10]⟩, ⟨"a", [5]⟩] := by
  constructor
  · intro h
    exact absurd (congrArg (fun l => (l.headD ⟨"", []⟩).id) h) (by decide)
  · intro h
    exact absurd (congrArg (fun l => (l.headD ⟨"", []⟩).tokens) h) (by decide)

/-- Claim C4 (amended): both functions sort the caller's backing storage in
place rather than on a private copy.  After `GetInstanceWithTokenRange` the
instances slice holds a permutation of the input sorted ascending by first
token, and after `NewInstanceSortMergeIterator` each instance's `Tokens`
slice holds a sorted permutation of its previous content (ids and instance
order unchanged); the snapshot is only unchanged when it was already
sorted. -/
theorem C4_sorts_in_place :
    ∀ instances : List InstanceDesc,
      List.Perm (getInstanceWithTokenRangePost instances) instances ∧
      List.Pairwise (fun a b => tokenKey a ≤ tokenKey b)
        (getInstanceWithTokenRangePost instances) ∧
      (newInstanceSortMergeIteratorPost instances).map (fun inst => inst.id)
        = instances.map (fun inst => inst.id) ∧
      ∀ inst ∈ instances,
        List.Perm (sortTokens inst.tokens) inst.tokens ∧
        List.Pairwise (fun a b : Nat => a ≤ b) (sortTokens inst.tokens) := by
  intro instances
  refine ⟨List.perm_insertionSort _ instances, List.sorted_insertionSort _ instances, ?_, ?_⟩
  · unfold newInstanceSortMergeIteratorPost
    rw [List.map_map]
    rfl
  · intro inst _
    exact ⟨List.perm_insertionSort _ inst.tokens, List.sorted_insertionSort _ inst.tokens⟩

/-- Claim C4 (witness): the in-place token sort at a concrete input. -/
theorem C4_sorts_in_place_witness :
    List.Perm (sortTokens [20, 10]) [20, 10] ∧
      List.Pairwise (fun a b : Nat => a ≤ b) (sortTokens [20, 10]) :=
  (C4_sorts_in_place [⟨"b", [20, 10]⟩]).2.2.2 ⟨"b", [20, 10]⟩ (List.mem_cons_self ..)

/-- Claim C5: for the instance found at zero-based ordinal `i` of the
ascending-by-first-token order, the single-token partitioner returns exactly
`[i*step, i*step + step - 1]` with `step = floor(MaxUint64 / n)`, the last
ordinal extended to MaxUint64 — in exact (non-wrapping) arithmetic, the Go
`uint64` operations never overflowing under the slice-length bound. -/
theorem C5_ordinal_equal_width (id : String) (instances : List InstanceDesc) (i : Nat)
    (hfind : indexFunc (fun inst => inst.id = id) (sortInstances instances) = some i)
    (h64 : instances.length < U64SIZE) :
    getInstanceWithTokenRange id instances =
      some (i * (U64MAX / instances.length),
        if i = instances.length - 1 then U64MAX
        else i * (U64MAX / instances.length) + (U64MAX / instances.length) - 1) :=
  getInstance_formula id instances i hfind h64

/-- Claim C5 (witness): ordinal 1 of a 3-instance snapshot. -/
theorem C5_ordinal_equal_width_witness :
    getInstanceWithTokenRange "b" [⟨"a", [1]⟩, ⟨"b", [2]⟩, ⟨"c", [3]⟩]
      = some (6148914691236517205, 12297829382473034409) := by
  have h := C5_ordinal_equal_width "b" [⟨"a", [1]⟩, ⟨"b", [2]⟩, ⟨"c", [3]⟩] 1
    (by decide) (by decide)
  rw [h]
  rfl

/-- Claim C8: the single-token partitioner fails with `InstanceNotFound`
exactly when the requested id is absent (the empty snapshot included), while
the multi-token partitioner never fails and returns the empty list for an
absent id. -/
theorem C8_not_found_asymmetry (id : String) (instances : List InstanceDesc) :
    (getInstanceWithTokenRange id instances = none ↔
        ∀ inst ∈ instances, inst.id ≠ id) ∧
      ((∀ inst ∈ instances, inst.id ≠ id) →
        getInstancesWithTokenRanges id instances = []) := by
  constructor
  · have hmem : ∀ inst : InstanceDesc,
        inst ∈ sortInstances instances ↔ inst ∈ instances := fun inst =>
      (List.perm_insertionSort _ instances).mem_iff
    unfold getInstanceWithTokenRange
    cases h : indexFunc (fun inst => inst.id = id) (sortInstances instances) with
    | none =>
        simp only [h]
        constructor
        · intro _
          intro inst hinst heq
          have := (indexFunc_none_iff _ _).mp h inst ((hmem inst).mpr hinst)
          rw [decide_eq_true_eq] at this
          exact this heq
        · intro _
          trivial
    | some k =>
        simp only [h]
        constructor
        · intro hcontra
          exact absurd hcontra (by simp)
        · intro hall
          have hnone : indexFunc (fun inst => inst.id = id) (sortInstances instances) = none := by
            apply (indexFunc_none_iff _ _).mpr
            intro inst hinst
            rw [decide_eq_true_eq]
            exact hall inst ((hmem inst).mp hinst)
          exact absurd (h.symm.trans hnone) (by simp)
  · intro hall
    rw [getInstances_closed]
    have howned : ownedRanges id instances = [] := by
      unfold ownedRanges
      apply List.filter_eq_nil_iff.mpr
      intro r hr
      rw [decide_eq_true_eq]
      exact hall r.inst (owners_mem instances r hr)
    rw [if_neg (by rintro ⟨hne2, _⟩; exact hne2 howned)]
    exact howned

/-- Claim C8 (witness): an absent id at a concrete snapshot. -/
theorem C8_not_found_asymmetry_witness :
    getInstanceWithTokenRange "z" [⟨"a", [1]⟩] = none ∧
      getInstancesWithTokenRanges "z" [⟨"a", [1]⟩] = [] :=
  ⟨(C8_not_found_asymmetry "z" [⟨"a", [1]⟩]).1.mpr (by decide),
   (C8_not_found_asymmetry "z" [⟨"a", [1]⟩]).2 (by decide)⟩

/-- Claim C9: with globally pairwise-distinct tokens every emitted range
satisfies `MinToken ≤ MaxToken`; the precondition is necessary — a snapshot
in which two instances hold the same token makes the iterator emit a
degenerate range with `MinToken = MaxToken + 1`. -/
theorem C9_range_invariant_needs_distinct_tokens :
    (∀ instances : List InstanceDesc,
        (allTokens instances).Nodup →
        (∀ tk ∈ allTokens instances, tk ≤ U32MAX) →
        ∀ r ∈ instanceSortMergeList instances, r.minToken ≤ r.maxToken) ∧
      ∃ r ∈ instanceSortMergeList [⟨"a", [5]⟩, ⟨"b", [5]⟩],
        r.minToken = r.maxToken + 1 := by
  constructor
  · intro instances hnd htok
    unfold instanceSortMergeList
    apply mapRanges_min_le_max instances (mergedPairs instances) (-1)
      (mergedPairs_strict_sorted instances hnd)
      (fun p hp => htok p.1
        (mem_allPairsRaw_token instances p ((mergedPairs_perm instances).mem_iff.mp hp)))
      (by omega)
      (fun p _ => by omega)
  · refine ⟨⟨⟨"b", [5]⟩, 6, 5⟩, ?_, rfl⟩
    decide

/-- Claim C9 (witness): distinct-token snapshot, first emitted range. -/
theorem C9_range_invariant_witness :
    (instanceSortMergeList [⟨"m", [4]⟩, ⟨"n", [8]⟩]).headI.minToken ≤
      (instanceSortMergeList [⟨"m", [4]⟩, ⟨"n", [8]⟩]).headI.maxToken :=
  C9_range_invariant_needs_distinct_tokens.1 [⟨"m", [4]⟩, ⟨"n", [8]⟩]
    (by decide) (by decide) _ (by decide)

/-- Claim C10: with non-empty instance ids (and globally distinct tokens so
that the smallest token has a unique owner) the wraparound range goes to the
requested id exactly when that id owns the globally smallest token; but the
first-owner detection uses the `Id == ""` zero-value sentinel, so when the
smallest token's owner has the empty id the wraparound is appended for an
instance that does not own the smallest token. -/
theorem C10_empty_id_sentinel :
    (∀ (instances : List InstanceDesc) (id : String),
        (allTokens instances).Nodup →
        (∀ inst ∈ instances, inst.id ≠ "") →
        (receivesWraparound id instances ↔ ownsMinToken id instances)) ∧
      (receivesWraparound "b" [⟨"", [10]⟩, ⟨"b", [20]⟩] ∧
        ¬ ownsMinToken "b" [⟨"", [10]⟩, ⟨"b", [20]⟩]) := by
  refine ⟨fun instances id hnd hid => receivesWrap_iff_ownsMin instances hnd hid id, ?_, ?_⟩
  · decide
  · decide

/-- Claim C10 (witness): non-empty ids at a concrete snapshot. -/
theorem C10_empty_id_sentinel_witness :
    receivesWraparound "p" [⟨"p", [1]⟩, ⟨"q", [2]⟩] :=
  (C10_empty_id_sentinel.1 [⟨"p", [1]⟩, ⟨"q", [2]⟩] "p" (by decide) (by decide)).mpr
    (by decide)

/-- Claim C6 (counterexample): the claim fails for a snapshot whose
smallest-token owner has the empty id: id `"c"` receives the wraparound range
although it does not own the globally smallest token `5`. -/
theorem C6_counterexample :
    receivesWraparound "c" [⟨"", [5]⟩, ⟨"c", [30]⟩] ∧
      ¬ ownsMinToken "c" [⟨"", [5]⟩, ⟨"c", [30]⟩] := by
  constructor
  · decide
  · decide

/-- Claim C6 (amended): restricted to snapshots with at least one token,
globally distinct tokens and non-empty instance ids, exactly one id — the
owner of the globally smallest token — receives the extra wraparound range;
every other id receives none. -/
theorem C6_single_wraparound_owner (instances : List InstanceDesc)
    (hne : allTokens instances ≠ [])
    (hnd : (allTokens instances).Nodup)
    (hid : ∀ inst ∈ instances, inst.id ≠ "") :
    ∃ s, ownsMinToken s instances ∧
      ∀ id, receivesWraparound id instances ↔ id = s := by
  refine ⟨(instanceSortMergeList instances).headI.inst.id,
    head_owner_ownsMin instances hne, fun id => ?_⟩
  rw [receivesWrap_iff_ownsMin instances hnd hid id]
  constructor
  · intro howns
    exact ownsMin_unique instances hnd id _ howns (head_owner_ownsMin instances hne)
  · rintro rfl
    exact head_owner_ownsMin instances hne

/-- Claim C6 (witness): a concrete two-instance snapshot. -/
theorem C6_single_wraparound_owner_witness :
    ∃ s, ownsMinToken s [⟨"u", [3]⟩, ⟨"v", [9]⟩] ∧
      ∀ id, receivesWraparound id [⟨"u", [3]⟩, ⟨"v", [9]⟩] ↔ id = s :=
  C6_single_wraparound_owner [⟨"u", [3]⟩, ⟨"v", [9]⟩] (by decide) (by decide) (by decide)

/-- Claim C1 (counterexample): with the largest ring token equal to
MaxUint32 the wraparound `+1` wraps and token `3` is covered twice across
the union of all ids' outputs. -/
theorem C1_counterexample : coverCount [⟨"x", [U32MAX]⟩] 3 = 2 := by
  rfl

/-- Claim C1 (witness): the spec's Scenario B snapshot, token 7. -/
theorem C1_multi_token_coverage_witness :
    coverCount [⟨"a", [10, 50]⟩, ⟨"b", [30]⟩] 7 = 1 :=
  C1_multi_token_coverage [⟨"a", [10, 50]⟩, ⟨"b", [30]⟩] (by decide) (by decide) 7 (by decide)

/-- Claim C7 (counterexample): a token held by two instances is yielded
twice, so the merged order is non-decreasing but not strictly ascending. -/
theorem C7_counterexample :
    mergedPairs [⟨"a", [7]⟩, ⟨"b", [7]⟩] = [(7, 0), (7, 1)] ∧
      ¬ List.Pairwise (fun a b : Nat × Nat => a.1 < b.1)
        (mergedPairs [⟨"a", [7]⟩, ⟨"b", [7]⟩]) := by
  constructor
  · rfl
  · decide

/-- Claim C7 (amended): the merge yields every `(token, owner)` pair of the
snapshot in non-decreasing (not necessarily strict) token order, and the
boundary fold emits one range per pair — never collapsing equal adjacent
tokens — whose owner is the pair's instance, whose max is the pair's token
and whose min is the previous pair's token plus one (`uint32` arithmetic),
the state starting one below the keyspace minimum so that the first range
has min `0`. -/
theorem C7_merge_and_boundary_fold (instances : List InstanceDesc) :
    List.Pairwise (fun a b : Nat × Nat => a.1 ≤ b.1) (mergedPairs instances) ∧
      List.Perm (mergedPairs instances) (allPairsRaw instances) ∧
      (instanceSortMergeList instances).length = (mergedPairs instances).length ∧
      ∀ (k : Nat) (h1 : k < (mergedPairs instances).length)
        (h2 : k < (instanceSortMergeList instances).length),
        (instanceSortMergeList instances).get ⟨k, h2⟩ =
          { inst := instances.getD ((mergedPairs instances).get ⟨k, h1⟩).2 ⟨"", []⟩,
            minToken := ((((if k = 0 then (-1 : Int)
                else (((mergedPairs instances).get ⟨k - 1, by omega⟩).1 : Int))) + 1)
                  % (U32SIZE : Int)).toNat,
            maxToken := ((mergedPairs instances).get ⟨k, h1⟩).1 } := by
  refine ⟨mergedPairs_sorted instances, mergedPairs_perm instances,
    length_mapRanges instances (-1) (mergedPairs instances), ?_⟩
  intro k h1 h2
  exact mapRanges_get instances (mergedPairs instances) (-1) k h1 h2

/-- Claim C7 (witness): the first emitted range at a concrete snapshot. -/
theorem C7_merge_and_boundary_fold_witness :
    (instanceSortMergeList [⟨"a", [4]⟩, ⟨"b", [9]⟩]).get ⟨0, by decide⟩ =
      { inst := ⟨"a", [4]⟩, minToken := 0, maxToken := 4 } :=
  ((C7_merge_and_boundary_fold [⟨"a", [4]⟩, ⟨"b", [9]⟩]).2.2.2 0
    (by decide) (by decide)).trans (by decide)

theorem headI_eq_get {α : Type} [Inhabited α] (l : List α) (h : l ≠ []) :
    l.headI = l.get ⟨0, List.length_pos.mpr h⟩ := by
  cases l with
  | nil => exact absurd rfl h
  | cons a as => rfl

/-- Claim C2: for a snapshot of `n ≥ 1` single-token instances with distinct
ids (count below Go's slice bound), the per-id ranges of the single-token
partitioner exactly cover `[0, MaxUint64]`: the first ordinal's range starts
at `0`, the last ordinal's range ends at `MaxUint64`, and each token of the
keyspace is classified `Overlap` by exactly one of the `n` ranges. -/
theorem C2_single_token_completeness (instances : List InstanceDesc)
    (hs : sortInstances instances ≠ [])
    (h64 : instances.length < U64SIZE)
    (hids : (instances.map (fun inst => inst.id)).Nodup)
    (_hone : ∀ inst ∈ instances, inst.tokens.length = 1) :
    (getInstanceWithTokenRange ((sortInstances instances).headI.id) instances).map
        Prod.fst = some 0 ∧
      (getInstanceWithTokenRange (((sortInstances instances).getLast hs).id)
          instances).map Prod.snd = some U64MAX ∧
      ∀ t ≤ U64MAX,
        instances.countP (fun inst =>
          singleOverlapB (getInstanceWithTokenRange inst.id instances) t) = 1 := by
  have hperm : List.Perm (sortInstances instances) instances :=
    List.perm_insertionSort _ instances
  have hlen : (sortInstances instances).length = instances.length := hperm.length_eq
  have hnodup : ((sortInstances instances).map (fun inst => inst.id)).Nodup :=
    (hperm.map (fun inst => inst.id)).nodup_iff.mpr hids
  have hn : 0 < instances.length := by
    rw [← hlen]
    exact List.length_pos.mpr hs
  have key : ∀ (k : Nat) (h : k < (sortInstances instances).length),
      getInstanceWithTokenRange ((sortInstances instances).get ⟨k, h⟩).id instances
        = some (k * (U64MAX / instances.length),
            if k = instances.length - 1 then U64MAX
            else k * (U64MAX / instances.length) + (U64MAX / instances.length) - 1) := by
    intro k h
    apply getInstance_formula
    · exact indexFunc_self (sortInstances instances) hnodup k h
    · exact h64
  refine ⟨?_, ?_, ?_⟩
  · rw [headI_eq_get _ hs, key 0 (List.length_pos.mpr hs)]
    simp
  · have hlast : (sortInstances instances).getLast hs
        = (sortInstances instances).get
            ⟨(sortInstances instances).length - 1, by
              have := List.length_pos.mpr hs
              omega⟩ := by
      rw [List.getLast_eq_getElem, List.get_eq_getElem]
    rw [hlast, key ((sortInstances instances).length - 1) (by
      have := List.length_pos.mpr hs
      omega)]
    rw [hlen, if_pos rfl]
    rfl
  · intro t ht
    rw [← hperm.countP_eq]
    rw [countP_eq_range_countP (sortInstances instances) _
      (fun k => decide (k * (U64MAX / instances.length) ≤ t ∧
        t ≤ (if k = instances.length - 1 then U64MAX
          else k * (U64MAX / instances.length) + (U64MAX / instances.length) - 1)))
      (fun k h => by
        simp only [key k h, singleOverlapB, boundsCmp_overlap_iff])]
    rw [hlen]
    apply range_tiling instances.length t hn ?_ ht
    unfold U64SIZE at h64
    unfold U64MAX
    omega

/-- Claim C2 (witness): a concrete two-instance single-token snapshot. -/
theorem C2_single_token_completeness_witness :
    List.countP (fun inst : InstanceDesc =>
        singleOverlapB (getInstanceWithTokenRange inst.id
          [⟨"a", [1]⟩, ⟨"b", [2]⟩]) 5) [⟨"a", [1]⟩, ⟨"b", [2]⟩] = 1 :=
  (C2_single_token_completeness [⟨"a", [1]⟩, ⟨"b", [2]⟩]
    (by decide) (by decide) (by decide) (by decide)).2.2 5 (by decide)
